import Mathlib

/-!
Shallow embedding of the character-level recurrent language model of
`Lecture 12 - Recurrent Models/Recurrent_Neural_Networks.ipynb`.

Conventions of the embedding:
* Text is `List Char`; the encoded corpus is `List ℕ` (character ids).
* Python dictionaries built by `create_map` / the reversed map are modelled by
  the duplicate-free list `create_map txt` of the corpus characters together
  with positional lookup (`num_to_let`) and `indexOf` (`let_to_num`).  A failed
  dictionary lookup (Python `KeyError`) is `Option.none` / an `Except` error.
* The torch modules (`Embedding`/`GRU`/`Linear` composed in `RNN.forward`,
  `CrossEntropyLoss`, the optimizer and `torch.exp`) are external library
  collaborators; they are parameters of the definitions (`step`, `crit`,
  `upd`, `e`), while every piece of control flow written in the notebook
  itself (the priming loop, the sampling loop, the chunk and epoch loops,
  `random_chunk`, `maparray`, `np.roll`) is embedded concretely.
* Real/tensor scalars are modelled by `ℚ`.
-/

namespace RNNLecture

/-- Source `create_map`: `letters = list(set(rawtxt))`;
`lettermap = dict(enumerate(letters))`.  The dictionary `i ↦ letters[i]` is
represented by the duplicate-free list of characters itself (Python's `set`
iteration order is unspecified; `dedup` fixes one order, which the notebook's
claims never depend on). -/
def create_map (rawtxt : List Char) : List Char :=
  rawtxt.dedup

/-- Source `num_to_let`: the dictionary from ids to characters,
`num_to_let[i] = letters[i]`; a missing key (id out of range) is `none`. -/
def num_to_let (rawtxt : List Char) (i : ℕ) : Option Char :=
  (create_map rawtxt)[i]?

/-- Source `let_to_num = dict(zip(num_to_let.values(), num_to_let.keys()))`:
the reverse dictionary from characters to ids; a missing key (character not in
the corpus) is `none`. -/
def let_to_num (rawtxt : List Char) (c : Char) : Option ℕ :=
  if c ∈ create_map rawtxt then some ((create_map rawtxt).indexOf c) else none

/-- Source `nchars = len(num_to_let)`. -/
def nchars (rawtxt : List Char) : ℕ :=
  (create_map rawtxt).length

/-- Source `maparray(txt, mapdict)`: maps each character of `txt` through the
dictionary; a character absent from the dictionary raises `KeyError` in
Python, modelled by `none`. -/
def maparray (txt : List Char) (mapdict : Char → Option ℕ) : Option (List ℕ) :=
  match txt with
  | [] => some []
  | c :: rest =>
      match mapdict c, maparray rest mapdict with
      | some v, some vs => some (v :: vs)
      | _, _ => none

/-- The value `maparray` computes when every character is in the vocabulary:
each character replaced by its id in `create_map`. -/
def encodeX (rawtxt : List Char) : List ℕ :=
  rawtxt.map (fun c => (create_map rawtxt).indexOf c)

/-- Source `np.roll(_, -1, axis=0)`: cyclic left shift by one position. -/
def rollNeg1 {α : Type} (l : List α) : List α :=
  l.drop 1 ++ l.take 1

/-- Source `X = maparray(rawtxt, let_to_num)`. -/
def Xenc (rawtxt : List Char) : Option (List ℕ) :=
  maparray rawtxt (let_to_num rawtxt)

/-- Source `Y = np.roll(X, -1, axis=0)`. -/
def Yenc (rawtxt : List Char) : Option (List ℕ) :=
  (Xenc rawtxt).map rollNeg1

/-- Source `random_chunk(chunk_size)`: with the random draw
`k = np.random.randint(0, len(X)-chunk_size)` supplied explicitly, returns
`X[k:k+chunk_size], Y[k:k+chunk_size]`. -/
def random_chunk (X Y : List ℕ) (chunk_size k : ℕ) : List ℕ × List ℕ :=
  ((X.drop k).take chunk_size, (Y.drop k).take chunk_size)

/-- Source `RNN.init_hidden`: `torch.zeros(self.n_layers, 1, self.hidden_size)`,
flattened to a vector of `n_layers * hidden_size` zeros. -/
def init_hidden (n_layers hidden_size : ℕ) : List ℚ :=
  List.replicate (n_layers * hidden_size) (0 : ℚ)

/-- Failures of the notebook's dictionary lookups and indexing, all raised as
exceptions (`KeyError` / `IndexError`) in Python. -/
inductive ModelErr : Type where
  /-- `KeyError` in `maparray`: a character not in the vocabulary. -/
  | unknownChar : ModelErr
  /-- `IndexError` from `x = x[-1]` on an empty prime string. -/
  | emptyPrime : ModelErr
  /-- `KeyError` in `num_to_let[...]`: an id with no entry. -/
  | invalidId : ModelErr
deriving DecidableEq

/-- Model of the external sampler `torch.multinomial(w, 1)[0]` (library code):
walk the weights, subtracting each from the threshold until it is exceeded.
Together with the threshold `u * w.sum` for a uniform draw `u ∈ [0,1)` this is
inverse-CDF sampling, the construction the spec prescribes for it (§9). -/
def multinomialGo : List ℚ → ℚ → ℕ → ℕ
  | [], _, i => i
  | c :: rest, t, i => if t < c then i else multinomialGo rest (t - c) (i + 1)

/-- `torch.multinomial(w, 1)[0]` driven by a single uniform draw `u`. -/
def multinomialIdx (w : List ℚ) (u : ℚ) : ℕ :=
  multinomialGo w (u * w.sum) 0

/-- Model of `out.data.max(1)`'s returned index (library code): the position
of the first maximal entry. -/
def argmaxAux : List ℚ → ℚ → ℕ → ℕ → ℕ
  | [], _, _, best => best
  | c :: rest, m, i, best =>
      if m < c then argmaxAux rest c (i + 1) i else argmaxAux rest m (i + 1) best

/-- Index of the first maximal entry of a weight list. -/
def argmaxIdx : List ℚ → ℕ
  | [] => 0
  | c :: rest => argmaxAux rest c 1 0

/-- Source `generate`, priming phase:
`for i in range(len(x)): out, h = myrnn.forward(x[i], h)` — every encoded
prime character is fed to the cell, only the hidden state is kept.  The cell
`step` (torch `Embedding`+`GRU`+`Linear`) is an external parameter mapping an
input id and a hidden state to logits and a new hidden state. -/
def primeLoop (step : ℕ → List ℚ → List ℚ × List ℚ) :
    List ℕ → List ℚ → List ℚ
  | [], h => h
  | cid :: rest, h => primeLoop step rest (step cid h).2

/-- Source `generate`, sampling phase: `str_len` iterations of
`out, h = forward(x, h)`; `out_dist = out.div(temperature).exp()`;
`sample = multinomial(out_dist, 1)[0]`; `pred_char = num_to_let[sample]`;
`generated += pred_char`; `x = sample`.  `e` models elementwise `torch.exp`
(external) and `u i` the `i`-th uniform draw driving the sampler. -/
def genLoop (step : ℕ → List ℚ → List ℚ × List ℚ) (numToLet : ℕ → Option Char)
    (e : ℚ → ℚ) (temperature : ℚ) (u : ℕ → ℚ) :
    ℕ → ℕ → ℕ → List ℚ → List Char → Except ModelErr (List Char)
  | 0, _, _, _, generated => .ok generated
  | n + 1, i, x, h, generated =>
      let oh := step x h
      let out_dist := oh.1.map (fun v => e (v / temperature))
      let sample := multinomialIdx out_dist (u i)
      match numToLet sample with
      | none => .error .invalidId
      | some pred_char =>
          genLoop step numToLet e temperature u n (i + 1) sample oh.2
            (generated ++ [pred_char])

/-- Source `generate(prime_str, str_len, temperature)`: start from the
all-zero hidden state, encode the prime (`KeyError` on out-of-vocabulary
characters), prime the hidden state on the whole encoded prime, set
`x = x[-1]` (`IndexError` on an empty prime), then sample `str_len`
characters, accumulating onto the prime string. -/
def generate (step : ℕ → List ℚ → List ℚ × List ℚ) (e : ℚ → ℚ)
    (rawtxt : List Char) (prime_str : List Char) (str_len : ℕ)
    (temperature : ℚ) (u : ℕ → ℚ) (n_layers hidden_size : ℕ) :
    Except ModelErr (List Char) :=
  match maparray prime_str (let_to_num rawtxt) with
  | none => .error .unknownChar
  | some ids =>
      match ids.getLast? with
      | none => .error .emptyPrime
      | some x =>
          genLoop step (num_to_let rawtxt) e temperature u str_len 0 x
            (primeLoop step ids (init_hidden n_layers hidden_size)) prime_str

/-- Instrumented cell used to observe what `primeLoop`/`genLoop` feed to the
cell: the hidden state is the list of ids fed so far. -/
def logStep (cid : ℕ) (h : List ℚ) : List ℚ × List ℚ :=
  ([1], h ++ [(cid : ℚ)])

/-- A concrete two-logit cell with constant output, used to evaluate the
model at concrete inputs. -/
def constStep (cid : ℕ) (h : List ℚ) : List ℚ × List ℚ :=
  ([1, 1], h)

/-- Source `train`, inner chunk loop: starting from a hidden state, walk the
aligned chunk `(x[i], y[i])`, at each step running the cell, appending the
greedily decoded character (`num_to_let[out.max(1)[1]]`) to `generated`, and
adding `criterion(out, y[i])` to the running chunk cost.  `crit` models torch
`CrossEntropyLoss` (external); the cell takes the current parameters `p`. -/
def runChunk {P : Type} (step : P → ℕ → List ℚ → List ℚ × List ℚ)
    (crit : List ℚ → ℕ → ℚ) (numToLet : ℕ → Option Char) (p : P) :
    List (ℕ × ℕ) → List ℚ → ℚ → List Char →
      Except ModelErr (ℚ × List Char × List ℚ)
  | [], h, cost, generated => .ok (cost, generated, h)
  | (xi, yi) :: rest, h, cost, generated =>
      let oh := step p xi h
      match numToLet (argmaxIdx oh.1) with
      | none => .error .invalidId
      | some letter =>
          runChunk step crit numToLet p rest oh.2 (cost + crit oh.1 yi)
            (generated ++ [letter])

/-- The chunk cost `runChunk` accumulates, as a pure fold. -/
def chunkCostGo {P : Type} (step : P → ℕ → List ℚ → List ℚ × List ℚ)
    (crit : List ℚ → ℕ → ℚ) (p : P) : List (ℕ × ℕ) → List ℚ → ℚ → ℚ
  | [], _, cost => cost
  | (xi, yi) :: rest, h, cost =>
      chunkCostGo step crit p rest (step p xi h).2 (cost + crit (step p xi h).1 yi)

/-- Source `train`, one epoch: for each of `len(X)//chunk_size` iterations,
reset the hidden state to `init_hidden()`, draw a random chunk (`ks j` is the
`j`-th offset drawn by `np.random.randint`), run it from zero cost, let the
optimizer update the parameters (`upd`, modelling
`zero_grad`/`backward`/`step`, external), and accumulate the chunk cost into
`totcost`; at the end divide `totcost` by `len(X)//chunk_size`. -/
def runEpochGo {P : Type} (step : P → ℕ → List ℚ → List ℚ × List ℚ)
    (crit : List ℚ → ℕ → ℚ) (numToLet : ℕ → Option Char)
    (upd : P → List (ℕ × ℕ) → P) (X Y : List ℕ) (chunk_size : ℕ)
    (ks : ℕ → ℕ) (n_layers hidden_size : ℕ) :
    List ℕ → P → ℚ → List Char → Except ModelErr (ℚ × List Char × P)
  | [], p, totcost, generated =>
      .ok (totcost / ((X.length / chunk_size : ℕ) : ℚ), generated, p)
  | j :: rest, p, totcost, generated =>
      let c := random_chunk X Y chunk_size (ks j)
      match runChunk step crit numToLet p (c.1.zip c.2)
          (init_hidden n_layers hidden_size) 0 [] with
      | .error err => .error err
      | .ok r =>
          runEpochGo step crit numToLet upd X Y chunk_size ks n_layers
            hidden_size rest (upd p (c.1.zip c.2)) (totcost + r.1)
            (generated ++ r.2.1)

/-- One epoch of source `train`: `len(X)//chunk_size` chunk iterations
starting from parameters `p0`, zero accumulated cost and empty `generated`. -/
def runEpoch {P : Type} (step : P → ℕ → List ℚ → List ℚ × List ℚ)
    (crit : List ℚ → ℕ → ℚ) (numToLet : ℕ → Option Char)
    (upd : P → List (ℕ × ℕ) → P) (X Y : List ℕ) (chunk_size : ℕ)
    (ks : ℕ → ℕ) (n_layers hidden_size : ℕ) (p0 : P) :
    Except ModelErr (ℚ × List Char × P) :=
  runEpochGo step crit numToLet upd X Y chunk_size ks n_layers hidden_size
    (List.range (X.length / chunk_size)) p0 0 []

/-- The per-chunk costs of one epoch, each computed from the freshly zeroed
hidden state `init_hidden n_layers hidden_size`, with the parameters evolving
by `upd` from chunk to chunk. -/
def epochCosts {P : Type} (step : P → ℕ → List ℚ → List ℚ × List ℚ)
    (crit : List ℚ → ℕ → ℚ) (upd : P → List (ℕ × ℕ) → P) (X Y : List ℕ)
    (chunk_size : ℕ) (ks : ℕ → ℕ) (n_layers hidden_size : ℕ) :
    List ℕ → P → List ℚ
  | [], _ => []
  | j :: rest, p =>
      chunkCostGo step crit p
          ((random_chunk X Y chunk_size (ks j)).1.zip
            (random_chunk X Y chunk_size (ks j)).2)
          (init_hidden n_layers hidden_size) 0
        :: epochCosts step crit upd X Y chunk_size ks n_layers hidden_size rest
            (upd p ((random_chunk X Y chunk_size (ks j)).1.zip
              (random_chunk X Y chunk_size (ks j)).2))

section Lookup

/-- `let_to_num` succeeds on every corpus character, returning its index in
`create_map`. -/
theorem let_to_num_eq_of_mem (rawtxt : List Char) {c : Char} (hc : c ∈ rawtxt) :
    let_to_num rawtxt c = some ((create_map rawtxt).indexOf c) := by
  have : c ∈ create_map rawtxt := by
    simpa [create_map, List.mem_dedup] using hc
  simp [let_to_num, this]

/-- `maparray` succeeds when every character of `txt` belongs to the corpus,
and returns the positional encoding. -/
theorem maparray_eq_some (rawtxt : List Char) :
    ∀ (txt : List Char), (∀ c ∈ txt, c ∈ rawtxt) →
      maparray txt (let_to_num rawtxt) =
        some (txt.map (fun c => (create_map rawtxt).indexOf c))
  | [], _ => rfl
  | c :: rest, h => by
      have hc := let_to_num_eq_of_mem rawtxt (h c (by simp))
      have hrest := maparray_eq_some rawtxt rest (fun d hd => h d (by simp [hd]))
      simp [maparray, hc, hrest]

/-- `Xenc` always succeeds and equals `encodeX`. -/
theorem Xenc_eq_some (rawtxt : List Char) :
    Xenc rawtxt = some (encodeX rawtxt) :=
  maparray_eq_some rawtxt rawtxt (fun _ hc => hc)

theorem encodeX_length (rawtxt : List Char) :
    (encodeX rawtxt).length = rawtxt.length := by
  simp [encodeX]

end Lookup

section Roll

theorem rollNeg1_length {α : Type} (l : List α) :
    (rollNeg1 l).length = l.length := by
  rcases l with _ | ⟨a, rest⟩ <;> simp [rollNeg1]

/-- Elementwise description of `np.roll(l, -1)`:
the entry at `i` is the entry of `l` at `(i+1) % len l`. -/
theorem rollNeg1_getElem? {α : Type} (l : List α) (i : ℕ) (hi : i < l.length) :
    (rollNeg1 l)[i]? = l[(i + 1) % l.length]? := by
  rcases l with _ | ⟨a, rest⟩
  · simp at hi
  · have hd : rollNeg1 (a :: rest) = rest ++ [a] := rfl
    rw [hd]
    rw [List.getElem?_append]
    simp only [List.length_cons]
    by_cases hlt : i < rest.length
    · rw [if_pos hlt, Nat.mod_eq_of_lt (Nat.succ_lt_succ hlt)]
      simp
    · have hie : i = rest.length := by
        simp at hi
        omega
      -- last position wraps to the head
      subst hie
      rw [if_neg (lt_irrefl _)]
      simp [Nat.mod_self]

end Roll

/-- C6: the character→id and id→character dictionaries built by `create_map`
are exact inverses — every corpus character encodes to an id that decodes back
to it, every id in range decodes to a character that encodes back to it — and
`nchars` is the number of distinct characters of the corpus. -/
theorem vocab_maps_are_inverses (rawtxt : List Char) :
    (∀ c ∈ rawtxt, ∃ i, let_to_num rawtxt c = some i ∧ num_to_let rawtxt i = some c) ∧
    (∀ i, i < nchars rawtxt →
      ∃ c, num_to_let rawtxt i = some c ∧ let_to_num rawtxt c = some i) ∧
    nchars rawtxt = rawtxt.toFinset.card := by
  have hnd : (create_map rawtxt).Nodup := List.nodup_dedup rawtxt
  refine ⟨?_, ?_, ?_⟩
  · intro c hc
    have hmem : c ∈ create_map rawtxt := by
      simpa [create_map, List.mem_dedup] using hc
    have hlt : (create_map rawtxt).indexOf c < (create_map rawtxt).length :=
      List.indexOf_lt_length.2 hmem
    refine ⟨(create_map rawtxt).indexOf c, let_to_num_eq_of_mem rawtxt hc, ?_⟩
    rw [num_to_let, List.getElem?_eq_getElem hlt]
    exact congrArg some (List.getElem_indexOf hlt)
  · intro i hi
    have hi' : i < (create_map rawtxt).length := hi
    refine ⟨(create_map rawtxt)[i], ?_, ?_⟩
    · rw [num_to_let, List.getElem?_eq_getElem hi']
    · have hmem : (create_map rawtxt)[i] ∈ create_map rawtxt :=
        List.getElem_mem hi'
      rw [let_to_num, if_pos hmem, List.indexOf_getElem hnd]
  · simpa [nchars, create_map] using (List.card_toFinset rawtxt).symm

/-- Witness for C6 at the concrete corpus `"ab"` and the character `'a'`. -/
theorem vocab_maps_are_inverses_witness :
    ∃ i, let_to_num ['a', 'b'] 'a' = some i ∧ num_to_let ['a', 'b'] i = some 'a' :=
  (vocab_maps_are_inverses ['a', 'b']).1 'a' (by simp)

/-- C8, counterexample: on the empty corpus `create_map` does not fail — it is
a total function and returns the empty vocabulary (no `EmptyCorpusError`
exists anywhere in the notebook), so "vocabulary construction fails iff the
corpus is empty" is false at the empty corpus. -/
theorem create_map_empty_succeeds :
    create_map [] = [] ∧ nchars [] = 0 :=
  ⟨rfl, rfl⟩

/-- C8, amended: vocabulary construction never fails — it is total; it
returns a duplicate-free vocabulary containing exactly the corpus characters,
which is empty exactly when the corpus is empty. -/
theorem create_map_total (rawtxt : List Char) :
    (create_map rawtxt).Nodup ∧
    (create_map rawtxt = [] ↔ rawtxt = []) ∧
    (∀ c, c ∈ create_map rawtxt ↔ c ∈ rawtxt) := by
  refine ⟨List.nodup_dedup rawtxt, List.dedup_eq_nil rawtxt, ?_⟩
  intro c
  simp [create_map, List.mem_dedup]

/-- C2: for every non-empty corpus the encoded corpus exists, `Y` is `X`
cyclically shifted left by one, `len(Y) = len(X)`, and
`Y[i] = X[(i+1) % len(X)]` at every valid index. -/
theorem encoded_corpus_shift (rawtxt : List Char) (hne : rawtxt ≠ []) :
    ∃ X, Xenc rawtxt = some X ∧ Yenc rawtxt = some (rollNeg1 X) ∧
      X ≠ [] ∧ (rollNeg1 X).length = X.length ∧
      ∀ i, i < X.length → (rollNeg1 X)[i]? = X[(i + 1) % X.length]? := by
  refine ⟨encodeX rawtxt, Xenc_eq_some rawtxt, ?_, ?_, rollNeg1_length _, ?_⟩
  · rw [Yenc, Xenc_eq_some rawtxt, Option.map_some']
  · intro h
    exact hne (by simpa [encodeX] using congrArg List.length h)
  · intro i hi
    exact rollNeg1_getElem? _ i hi

/-- Witness for C2 at the concrete corpus `"ab"`. -/
theorem encoded_corpus_shift_witness :
    ∃ X, Xenc ['a', 'b'] = some X ∧ Yenc ['a', 'b'] = some (rollNeg1 X) ∧
      X ≠ [] ∧ (rollNeg1 X).length = X.length ∧
      ∀ i, i < X.length → (rollNeg1 X)[i]? = X[(i + 1) % X.length]? :=
  encoded_corpus_shift ['a', 'b'] (by simp)

/-- C3: for `0 < chunk_size < len(X)` and any draw `k` in the exact support
`[0, len(X) - chunk_size)` of `np.random.randint(0, len(X)-chunk_size)`,
`random_chunk` returns the aligned contiguous slices `X[k:k+chunk_size]` and
`Y[k:k+chunk_size]`, each of length exactly `chunk_size`.  (That `k` is drawn
uniformly over this range is `np.random.randint`'s contract, external to the
notebook; the embedding quantifies over every value of that range.) -/
theorem random_chunk_aligned_slices (rawtxt : List Char) (chunk_size k : ℕ)
    (h0 : 0 < chunk_size) (hcs : chunk_size < (encodeX rawtxt).length)
    (hk : k < (encodeX rawtxt).length - chunk_size) :
    (random_chunk (encodeX rawtxt) (rollNeg1 (encodeX rawtxt)) chunk_size k).1.length
        = chunk_size ∧
    (random_chunk (encodeX rawtxt) (rollNeg1 (encodeX rawtxt)) chunk_size k).2.length
        = chunk_size ∧
    (∀ i, i < chunk_size →
      (random_chunk (encodeX rawtxt) (rollNeg1 (encodeX rawtxt)) chunk_size k).1[i]?
        = (encodeX rawtxt)[k + i]? ∧
      (random_chunk (encodeX rawtxt) (rollNeg1 (encodeX rawtxt)) chunk_size k).2[i]?
        = (rollNeg1 (encodeX rawtxt))[k + i]?) := by
  have hXY : (rollNeg1 (encodeX rawtxt)).length = (encodeX rawtxt).length :=
    rollNeg1_length _
  have hbound : k + chunk_size ≤ (encodeX rawtxt).length := by omega
  refine ⟨?_, ?_, ?_⟩
  · simp [random_chunk]
    omega
  · simp [random_chunk, hXY]
    omega
  · intro i hi
    constructor
    · rw [random_chunk]
      rw [List.getElem?_take, if_pos hi, List.getElem?_drop]
    · rw [random_chunk]
      rw [List.getElem?_take, if_pos hi, List.getElem?_drop]

/-- Witness for C3 at corpus `"abc"`, `chunk_size = 1`, `k = 0`. -/
theorem random_chunk_aligned_slices_witness :
    (random_chunk (encodeX ['a', 'b', 'c']) (rollNeg1 (encodeX ['a', 'b', 'c'])) 1 0).1.length
        = 1 ∧
    (random_chunk (encodeX ['a', 'b', 'c']) (rollNeg1 (encodeX ['a', 'b', 'c'])) 1 0).2.length
        = 1 ∧
    (∀ i, i < 1 →
      (random_chunk (encodeX ['a', 'b', 'c']) (rollNeg1 (encodeX ['a', 'b', 'c'])) 1 0).1[i]?
        = (encodeX ['a', 'b', 'c'])[0 + i]? ∧
      (random_chunk (encodeX ['a', 'b', 'c']) (rollNeg1 (encodeX ['a', 'b', 'c'])) 1 0).2[i]?
        = (rollNeg1 (encodeX ['a', 'b', 'c']))[0 + i]?) :=
  random_chunk_aligned_slices ['a', 'b', 'c'] 1 0 (by decide)
    (by simp [encodeX]) (by simp [encodeX])

section Sampling

theorem nchars_pos {rawtxt : List Char} (hne : rawtxt ≠ []) :
    0 < nchars rawtxt := by
  rw [nchars, List.length_pos]
  intro h
  exact hne ((List.dedup_eq_nil rawtxt).1 h)

/-- The CDF walk lands strictly inside the weight list whenever the threshold
is non-negative and below the total mass. -/
theorem multinomialGo_lt :
    ∀ (w : List ℚ) (t : ℚ) (i : ℕ), 0 ≤ t → t < w.sum →
      multinomialGo w t i < i + w.length
  | [], t, i, h0, hs => absurd (lt_of_le_of_lt h0 hs) (by simp)
  | c :: rest, t, i, h0, hs => by
      rw [multinomialGo]
      by_cases hc : t < c
      · rw [if_pos hc]
        simp
      · rw [if_neg hc]
        have h0' : 0 ≤ t - c := by
          have := le_of_not_lt hc
          linarith
        have hs' : t - c < rest.sum := by
          rw [List.sum_cons] at hs
          linarith
        have := multinomialGo_lt rest (t - c) (i + 1) h0' hs'
        simpa [Nat.add_comm, Nat.add_left_comm] using this

/-- `torch.multinomial` on a non-empty vector of positive weights, driven by
a uniform draw `u ∈ [0,1)`, returns an index inside the vector. -/
theorem multinomialIdx_lt {w : List ℚ} {u : ℚ} (hw : ∀ q ∈ w, 0 < q)
    (hne : w ≠ []) (hu0 : 0 ≤ u) (hu1 : u < 1) :
    multinomialIdx w u < w.length := by
  have hsum : 0 < w.sum := List.sum_pos w hw hne
  have h0 : 0 ≤ u * w.sum := mul_nonneg hu0 (le_of_lt hsum)
  have h1 : u * w.sum < w.sum := by
    have := mul_lt_mul_of_pos_right hu1 hsum
    simpa using this
  simpa using multinomialGo_lt w (u * w.sum) 0 h0 h1

/-- `num_to_let` succeeds on every id below `nchars`, returning a vocabulary
character. -/
theorem num_to_let_eq_some_of_lt {rawtxt : List Char} {i : ℕ}
    (hi : i < nchars rawtxt) :
    ∃ c, num_to_let rawtxt i = some c ∧ c ∈ create_map rawtxt := by
  have hi' : i < (create_map rawtxt).length := hi
  refine ⟨(create_map rawtxt)[i], ?_, List.getElem_mem hi'⟩
  rw [num_to_let, List.getElem?_eq_getElem hi']

/-- The sampling loop of `generate` never fails when the cell's logits have
length `nchars` and the (exponentiated) weights are positive: it appends
exactly `n` characters, all of them from the vocabulary. -/
theorem genLoop_ok {rawtxt : List Char}
    (step : ℕ → List ℚ → List ℚ × List ℚ) (e : ℚ → ℚ) (temperature : ℚ)
    (u : ℕ → ℚ)
    (hshape : ∀ cid h, ((step cid h).1).length = nchars rawtxt)
    (hnz : rawtxt ≠ [])
    (he : ∀ v, 0 < e v) (hu0 : ∀ i, 0 ≤ u i) (hu1 : ∀ i, u i < 1) :
    ∀ (n i x : ℕ) (h : List ℚ) (generated : List Char),
      ∃ suffix,
        genLoop step (num_to_let rawtxt) e temperature u n i x h generated
            = .ok (generated ++ suffix) ∧
        suffix.length = n ∧ ∀ c ∈ suffix, c ∈ create_map rawtxt := by
  intro n
  induction n with
  | zero =>
      intro i x h generated
      exact ⟨[], by simp [genLoop], rfl, by simp⟩
  | succ n ih =>
      intro i x h generated
      set out_dist := ((step x h).1).map (fun v => e (v / temperature)) with hdist
      have hdlen : out_dist.length = nchars rawtxt := by
        simp [hdist, hshape]
      have hdpos : ∀ q ∈ out_dist, 0 < q := by
        intro q hq
        rcases List.mem_map.1 hq with ⟨v, _, rfl⟩
        exact he _
      have hdne : out_dist ≠ [] := by
        intro hcontra
        have h0 := hdlen
        rw [hcontra] at h0
        have := nchars_pos hnz
        simp at h0
        omega
      have hsample : multinomialIdx out_dist (u i) < nchars rawtxt := by
        rw [← hdlen]
        exact multinomialIdx_lt hdpos hdne (hu0 i) (hu1 i)
      obtain ⟨pc, hlook, hmem⟩ := num_to_let_eq_some_of_lt hsample
      obtain ⟨suffix, hrun, hlen, hvocab⟩ :=
        ih (i + 1) (multinomialIdx out_dist (u i)) (step x h).2
          (generated ++ [pc])
      refine ⟨pc :: suffix, ?_, by simp [hlen], ?_⟩
      · rw [genLoop]
        rw [← hdist, hlook]
        simpa using hrun
      · intro c hc
        rcases List.mem_cons.1 hc with rfl | hc
        · exact hmem
        · exact hvocab c hc

end Sampling

section Generation

/-- Master success lemma for `generate`: with a non-empty in-vocabulary
prime, logits of length `nchars`, positive exponentiated weights and uniform
draws in `[0,1)`, `generate` succeeds for EVERY rational temperature and
returns the prime followed by `str_len` vocabulary characters. -/
theorem generate_ok_aux (step : ℕ → List ℚ → List ℚ × List ℚ) (e : ℚ → ℚ)
    (rawtxt prime_str : List Char) (str_len : ℕ) (temperature : ℚ)
    (u : ℕ → ℚ) (n_layers hidden_size : ℕ)
    (hprime : prime_str ≠ []) (hvocab : ∀ c ∈ prime_str, c ∈ rawtxt)
    (hshape : ∀ cid h, ((step cid h).1).length = nchars rawtxt)
    (he : ∀ v, 0 < e v) (hu0 : ∀ i, 0 ≤ u i) (hu1 : ∀ i, u i < 1) :
    ∃ suffix,
      generate step e rawtxt prime_str str_len temperature u n_layers
          hidden_size = .ok (prime_str ++ suffix) ∧
      suffix.length = str_len ∧ ∀ c ∈ suffix, c ∈ create_map rawtxt := by
  have hnz : rawtxt ≠ [] := by
    rcases prime_str with _ | ⟨c, rest⟩
    · exact absurd rfl hprime
    · intro h
      subst h
      exact absurd (hvocab c (by simp)) (by simp)
  have hmap := maparray_eq_some rawtxt prime_str hvocab
  have hids_ne : prime_str.map (fun c => (create_map rawtxt).indexOf c) ≠ [] := by
    simpa using hprime
  obtain ⟨x, hlast⟩ : ∃ x,
      (prime_str.map (fun c => (create_map rawtxt).indexOf c)).getLast?
        = some x := by
    rcases hx : (prime_str.map (fun c => (create_map rawtxt).indexOf c)).getLast? with
      _ | x
    · exact absurd (List.getLast?_eq_none_iff.1 hx) hids_ne
    · exact ⟨x, rfl⟩
  obtain ⟨suffix, hrun, hlen, hmem⟩ :=
    genLoop_ok step e temperature u hshape hnz he hu0 hu1 str_len 0 x
      (primeLoop step (prime_str.map (fun c => (create_map rawtxt).indexOf c))
        (init_hidden n_layers hidden_size)) prime_str
  refine ⟨suffix, ?_, hlen, hmem⟩
  rw [generate, hmap]
  simp only [hlast]
  exact hrun

/-- C1, counterexample: the priming phase of `generate`
(`for i in range(len(x)): out, h = myrnn.forward(x[i], h)`) runs the cell on
EVERY character of the encoded prime — with the instrumented cell whose
hidden state records the ids it was fed, priming on the two-character prime
`[5, 7]` feeds `[5, 7]`, not the `[5]` that "every character except the last"
would feed.  (The sampling loop then feeds the last id `7` once more before
drawing the first sample, so the last prime character reaches the cell twice
before the first sample, not exactly once as claimed.) -/
theorem priming_feeds_last_char_counterexample :
    primeLoop logStep [5, 7] [] = [5, 7] ∧
    primeLoop logStep [5] [] = [5] ∧
    ([5, 7] : List ℚ) ≠ [5] := by
  refine ⟨rfl, rfl, by decide⟩

/-- C1, amended: priming runs the cell on every character of the prime
INCLUDING the last, keeping only the hidden state; `current` is then set to
the last character, which the sampling loop feeds to the cell once more
before the first sample is drawn.  Hence, in the feed log of the
instrumented cell, after priming the log holds every prime id exactly once in
order, and the hidden state entering the first multinomial draw holds the
full prime followed by a second copy of its last id. -/
theorem priming_feeds_all_then_last_again (ids : List ℕ) (h0 : List ℚ) :
    primeLoop logStep ids h0 = h0 ++ ids.map (fun n => (n : ℚ)) ∧
    (∀ x, ids.getLast? = some x →
      (logStep x (primeLoop logStep ids h0)).2
        = h0 ++ ids.map (fun n => (n : ℚ)) ++ [(x : ℚ)]) := by
  have hlog : ∀ (l : List ℕ) (h : List ℚ),
      primeLoop logStep l h = h ++ l.map (fun n => (n : ℚ)) := by
    intro l
    induction l with
    | nil => intro h; simp [primeLoop]
    | cons cid rest ih =>
        intro h
        rw [primeLoop, ih]
        simp [logStep]
  refine ⟨hlog ids h0, ?_⟩
  intro x _
  simp [logStep, hlog]

/-- Witness for the amended C1 at the concrete prime ids `[5, 7]`. -/
theorem priming_feeds_all_then_last_again_witness :
    primeLoop logStep [5, 7] [] = [] ++ [5, 7].map (fun n => (n : ℚ)) ∧
    (logStep 7 (primeLoop logStep [5, 7] [])).2
      = [] ++ [5, 7].map (fun n => (n : ℚ)) ++ [(7 : ℚ)] :=
  ⟨(priming_feeds_all_then_last_again [5, 7] []).1,
    (priming_feeds_all_then_last_again [5, 7] []).2 7 rfl⟩

/-- C7, counterexample: `generate` performs no temperature validation — there
is no `InvalidTemperatureError` anywhere in the notebook — so at the strictly
negative temperature `-1` it computes a result instead of failing: on the
two-character corpus `"ab"` with the constant cell it returns `"aa"`. -/
theorem generate_negative_temperature_computes :
    generate constStep (fun _ => (1 : ℚ)) ['a', 'b'] ['a'] 1 (-1)
        (fun _ => 0) 1 2 = .ok ['a', 'a'] := by
  have hd : (['a', 'b'] : List Char).dedup = ['a', 'b'] := by decide
  norm_num [generate, maparray, let_to_num, create_map, num_to_let, genLoop,
    primeLoop, multinomialIdx, multinomialGo, constStep, init_hidden, hd]

/-- C7, amended: `generate` never checks `temperature`; for every strictly
negative temperature (and indeed any rational temperature) it proceeds to
compute and return a string rather than failing with an
`InvalidTemperatureError`. -/
theorem generate_no_temperature_validation
    (step : ℕ → List ℚ → List ℚ × List ℚ) (e : ℚ → ℚ)
    (rawtxt prime_str : List Char) (str_len : ℕ) (temperature : ℚ)
    (u : ℕ → ℚ) (n_layers hidden_size : ℕ)
    (ht : temperature < 0)
    (hprime : prime_str ≠ []) (hvocab : ∀ c ∈ prime_str, c ∈ rawtxt)
    (hshape : ∀ cid h, ((step cid h).1).length = nchars rawtxt)
    (he : ∀ v, 0 < e v) (hu0 : ∀ i, 0 ≤ u i) (hu1 : ∀ i, u i < 1) :
    ∃ s, generate step e rawtxt prime_str str_len temperature u n_layers
        hidden_size = .ok s := by
  obtain ⟨suffix, hrun, -, -⟩ :=
    generate_ok_aux step e rawtxt prime_str str_len temperature u n_layers
      hidden_size hprime hvocab hshape he hu0 hu1
  exact ⟨prime_str ++ suffix, hrun⟩

/-- Witness for the amended C7 at temperature `-1` on corpus `"ab"`. -/
theorem generate_no_temperature_validation_witness :
    ∃ s, generate constStep (fun _ => (1 : ℚ)) ['a', 'b'] ['a'] 1 (-1)
        (fun _ => 0) 1 2 = .ok s :=
  generate_no_temperature_validation constStep (fun _ => (1 : ℚ))
    ['a', 'b'] ['a'] 1 (-1) (fun _ => 0) 1 2 (by norm_num) (by simp)
    (by intro c hc; simp at hc; simp [hc]) (fun _ _ => rfl) (fun _ => by norm_num)
    (fun _ => le_refl 0) (fun _ => by norm_num)

/-- C9: for a non-empty in-vocabulary prime and any `str_len`, `generate`
returns a string of length `len(prime) + str_len` whose first
`len(prime)` characters are the prime itself. -/
theorem generate_length_and_begins_with_prime
    (step : ℕ → List ℚ → List ℚ × List ℚ) (e : ℚ → ℚ)
    (rawtxt prime_str : List Char) (str_len : ℕ) (temperature : ℚ)
    (u : ℕ → ℚ) (n_layers hidden_size : ℕ)
    (hprime : prime_str ≠ []) (hvocab : ∀ c ∈ prime_str, c ∈ rawtxt)
    (hshape : ∀ cid h, ((step cid h).1).length = nchars rawtxt)
    (he : ∀ v, 0 < e v) (hu0 : ∀ i, 0 ≤ u i) (hu1 : ∀ i, u i < 1) :
    ∃ s, generate step e rawtxt prime_str str_len temperature u n_layers
          hidden_size = .ok s ∧
      s.length = prime_str.length + str_len ∧
      s.take prime_str.length = prime_str := by
  obtain ⟨suffix, hrun, hlen, -⟩ :=
    generate_ok_aux step e rawtxt prime_str str_len temperature u n_layers
      hidden_size hprime hvocab hshape he hu0 hu1
  exact ⟨prime_str ++ suffix, hrun, by simp [hlen], List.take_left _ _⟩

/-- Witness for C9 on corpus `"ab"`, prime `"a"`, `str_len = 2`. -/
theorem generate_length_and_begins_with_prime_witness :
    ∃ s, generate constStep (fun _ => (1 : ℚ)) ['a', 'b'] ['a'] 2 1
          (fun _ => 0) 1 2 = .ok s ∧
      s.length = (['a'] : List Char).length + 2 ∧
      s.take (['a'] : List Char).length = ['a'] :=
  generate_length_and_begins_with_prime constStep (fun _ => (1 : ℚ))
    ['a', 'b'] ['a'] 2 1 (fun _ => 0) 1 2 (by simp)
    (by intro c hc; simp at hc; simp [hc]) (fun _ _ => rfl) (fun _ => by norm_num)
    (fun _ => le_refl 0) (fun _ => by norm_num)

/-- C10: every multinomial draw inside `generate`'s sampling loop is taken
from a positive weight vector of length `nchars`, hence lands in
`[0, nchars)`; consequently the `num_to_let` lookup on the sampled id always
succeeds and every character appended after the prime belongs to the
vocabulary. -/
theorem generate_sampled_ids_in_range
    (step : ℕ → List ℚ → List ℚ × List ℚ) (e : ℚ → ℚ)
    (rawtxt prime_str : List Char) (str_len : ℕ) (temperature : ℚ)
    (u : ℕ → ℚ) (n_layers hidden_size : ℕ)
    (hprime : prime_str ≠ []) (hvocab : ∀ c ∈ prime_str, c ∈ rawtxt)
    (hshape : ∀ cid h, ((step cid h).1).length = nchars rawtxt)
    (he : ∀ v, 0 < e v) (hu0 : ∀ i, 0 ≤ u i) (hu1 : ∀ i, u i < 1) :
    (∀ w : List ℚ, w.length = nchars rawtxt → (∀ q ∈ w, 0 < q) →
      ∀ v : ℚ, 0 ≤ v → v < 1 → multinomialIdx w v < nchars rawtxt) ∧
    ∃ s, generate step e rawtxt prime_str str_len temperature u n_layers
          hidden_size = .ok s ∧
      ∀ c ∈ s.drop prime_str.length, c ∈ create_map rawtxt := by
  have hnz : rawtxt ≠ [] := by
    rcases prime_str with _ | ⟨c, rest⟩
    · exact absurd rfl hprime
    · intro h
      subst h
      exact absurd (hvocab c (by simp)) (by simp)
  constructor
  · intro w hw hpos v h0 h1
    have hne : w ≠ [] := by
      intro hcontra
      rw [hcontra] at hw
      have := nchars_pos hnz
      simp at hw
      omega
    rw [← hw]
    exact multinomialIdx_lt hpos hne h0 h1
  · obtain ⟨suffix, hrun, -, hmem⟩ :=
      generate_ok_aux step e rawtxt prime_str str_len temperature u n_layers
        hidden_size hprime hvocab hshape he hu0 hu1
    refine ⟨prime_str ++ suffix, hrun, ?_⟩
    intro c hc
    rw [List.drop_left] at hc
    exact hmem c hc

/-- Witness for C10 on corpus `"ab"`, prime `"a"`, `str_len = 2`. -/
theorem generate_sampled_ids_in_range_witness :
    (∀ w : List ℚ, w.length = nchars ['a', 'b'] → (∀ q ∈ w, 0 < q) →
      ∀ v : ℚ, 0 ≤ v → v < 1 → multinomialIdx w v < nchars ['a', 'b']) ∧
    ∃ s, generate constStep (fun _ => (1 : ℚ)) ['a', 'b'] ['a'] 2 1
          (fun _ => 0) 1 2 = .ok s ∧
      ∀ c ∈ s.drop (['a'] : List Char).length, c ∈ create_map ['a', 'b'] :=
  generate_sampled_ids_in_range constStep (fun _ => (1 : ℚ))
    ['a', 'b'] ['a'] 2 1 (fun _ => 0) 1 2 (by simp)
    (by intro c hc; simp at hc; simp [hc]) (fun _ _ => rfl) (fun _ => by norm_num)
    (fun _ => le_refl 0) (fun _ => by norm_num)

end Generation

section Training

theorem argmaxAux_lt :
    ∀ (l : List ℚ) (m : ℚ) (i best : ℕ), best < i →
      argmaxAux l m i best < i + l.length
  | [], _, i, best, hb => by
      rw [argmaxAux]
      simpa using hb
  | c :: rest, m, i, best, hb => by
      rw [argmaxAux]
      by_cases hc : m < c
      · rw [if_pos hc]
        have := argmaxAux_lt rest c (i + 1) i (Nat.lt_succ_self i)
        simpa [Nat.add_comm, Nat.add_left_comm] using this
      · rw [if_neg hc]
        have := argmaxAux_lt rest m (i + 1) best (Nat.lt_succ_of_lt hb)
        simpa [Nat.add_comm, Nat.add_left_comm] using this

/-- `out.data.max(1)`'s index is always inside a non-empty logit vector. -/
theorem argmaxIdx_lt {l : List ℚ} (h : l ≠ []) : argmaxIdx l < l.length := by
  rcases l with _ | ⟨c, rest⟩
  · exact absurd rfl h
  · rw [argmaxIdx]
    have := argmaxAux_lt rest c 1 0 Nat.one_pos
    simp only [List.length_cons]
    omega

/-- The chunk loop of `train` never fails when the logits have length
`nchars`: it returns the accumulated cost of `chunkCostGo` and appends one
greedily decoded character per position. -/
theorem runChunk_ok {P : Type} (step : P → ℕ → List ℚ → List ℚ × List ℚ)
    (crit : List ℚ → ℕ → ℚ) (rawtxt : List Char) (p : P)
    (hshape : ∀ (q : P) (cid : ℕ) (h : List ℚ), ((step q cid h).1).length = nchars rawtxt)
    (hnz : rawtxt ≠ []) :
    ∀ (xy : List (ℕ × ℕ)) (h : List ℚ) (cost : ℚ) (generated : List Char),
      ∃ gen2 hfin,
        runChunk step crit (num_to_let rawtxt) p xy h cost generated
          = .ok (chunkCostGo step crit p xy h cost, generated ++ gen2, hfin) := by
  intro xy
  induction xy with
  | nil =>
      intro h cost generated
      exact ⟨[], h, by simp [runChunk, chunkCostGo]⟩
  | cons hd rest ih =>
      rcases hd with ⟨xi, yi⟩
      intro h cost generated
      have hlen : ((step p xi h).1).length = nchars rawtxt := hshape p xi h
      have hne : (step p xi h).1 ≠ [] := by
        intro hcontra
        have h0 := hlen
        rw [hcontra] at h0
        have := nchars_pos hnz
        simp at h0
        omega
      have hidx : argmaxIdx (step p xi h).1 < nchars rawtxt := by
        rw [← hlen]
        exact argmaxIdx_lt hne
      obtain ⟨letter, hlook, -⟩ := num_to_let_eq_some_of_lt hidx
      obtain ⟨gen2, hfin, hrun⟩ :=
        ih (step p xi h).2 (cost + crit (step p xi h).1 yi)
          (generated ++ [letter])
      refine ⟨letter :: gen2, hfin, ?_⟩
      rw [runChunk]
      rw [hlook]
      simp only [hrun, chunkCostGo]
      simp

/-- Each per-chunk cost list has one entry per chunk iteration. -/
theorem epochCosts_length {P : Type} (step : P → ℕ → List ℚ → List ℚ × List ℚ)
    (crit : List ℚ → ℕ → ℚ) (upd : P → List (ℕ × ℕ) → P) (X Y : List ℕ)
    (chunk_size : ℕ) (ks : ℕ → ℕ) (n_layers hidden_size : ℕ) :
    ∀ (js : List ℕ) (p : P),
      (epochCosts step crit upd X Y chunk_size ks n_layers hidden_size js p).length
        = js.length := by
  intro js
  induction js with
  | nil => intro p; rfl
  | cons j rest ih =>
      intro p
      rw [epochCosts]
      simp [ih]

/-- The epoch loop of `train` never fails under the same shape assumption:
it returns the sum of the per-chunk costs (each computed from the freshly
zeroed hidden state) divided by `len(X) // chunk_size`. -/
theorem runEpochGo_ok {P : Type} (step : P → ℕ → List ℚ → List ℚ × List ℚ)
    (crit : List ℚ → ℕ → ℚ) (upd : P → List (ℕ × ℕ) → P) (rawtxt : List Char)
    (X Y : List ℕ) (chunk_size : ℕ) (ks : ℕ → ℕ) (n_layers hidden_size : ℕ)
    (hshape : ∀ (q : P) (cid : ℕ) (h : List ℚ), ((step q cid h).1).length = nchars rawtxt)
    (hnz : rawtxt ≠ []) :
    ∀ (js : List ℕ) (p : P) (totcost : ℚ) (generated : List Char),
      ∃ gen2 pfin,
        runEpochGo step crit (num_to_let rawtxt) upd X Y chunk_size ks n_layers
            hidden_size js p totcost generated
          = .ok ((totcost +
                (epochCosts step crit upd X Y chunk_size ks n_layers hidden_size
                  js p).sum) / ((X.length / chunk_size : ℕ) : ℚ),
              generated ++ gen2, pfin) := by
  intro js
  induction js with
  | nil =>
      intro p totcost generated
      exact ⟨[], p, by simp [runEpochGo, epochCosts]⟩
  | cons j rest ih =>
      intro p totcost generated
      obtain ⟨genc, hfin, hrun⟩ :=
        runChunk_ok step crit rawtxt p hshape hnz
          ((random_chunk X Y chunk_size (ks j)).1.zip
            (random_chunk X Y chunk_size (ks j)).2)
          (init_hidden n_layers hidden_size) 0 []
      obtain ⟨gen2, pfin, hrest⟩ :=
        ih (upd p ((random_chunk X Y chunk_size (ks j)).1.zip
              (random_chunk X Y chunk_size (ks j)).2))
          (totcost +
            chunkCostGo step crit p
              ((random_chunk X Y chunk_size (ks j)).1.zip
                (random_chunk X Y chunk_size (ks j)).2)
              (init_hidden n_layers hidden_size) 0)
          (generated ++ genc)
      refine ⟨genc ++ gen2, pfin, ?_⟩
      rw [runEpochGo]
      rw [hrun]
      simp only [List.nil_append]
      rw [hrest]
      rw [epochCosts]
      congr 2
      · rw [List.sum_cons]
        ring
      · rw [List.append_assoc]

/-- C4: one epoch of `train` runs exactly `len(X) // chunk_size` chunks, and
the reported per-epoch cost is the sum of the per-chunk losses divided by
`len(X) // chunk_size`. -/
theorem epoch_chunk_count_and_average {P : Type}
    (step : P → ℕ → List ℚ → List ℚ × List ℚ) (crit : List ℚ → ℕ → ℚ)
    (upd : P → List (ℕ × ℕ) → P) (rawtxt : List Char) (chunk_size : ℕ)
    (ks : ℕ → ℕ) (n_layers hidden_size : ℕ) (p0 : P)
    (hshape : ∀ (q : P) (cid : ℕ) (h : List ℚ), ((step q cid h).1).length = nchars rawtxt)
    (hnz : rawtxt ≠ []) :
    ∃ gen pfin,
      runEpoch step crit (num_to_let rawtxt) upd (encodeX rawtxt)
          (rollNeg1 (encodeX rawtxt)) chunk_size ks n_layers hidden_size p0
        = .ok ((epochCosts step crit upd (encodeX rawtxt)
              (rollNeg1 (encodeX rawtxt)) chunk_size ks n_layers hidden_size
              (List.range ((encodeX rawtxt).length / chunk_size)) p0).sum
            / (((encodeX rawtxt).length / chunk_size : ℕ) : ℚ), gen, pfin) ∧
      (epochCosts step crit upd (encodeX rawtxt) (rollNeg1 (encodeX rawtxt))
          chunk_size ks n_layers hidden_size
          (List.range ((encodeX rawtxt).length / chunk_size)) p0).length
        = (encodeX rawtxt).length / chunk_size := by
  obtain ⟨gen2, pfin, hrun⟩ :=
    runEpochGo_ok step crit upd rawtxt (encodeX rawtxt)
      (rollNeg1 (encodeX rawtxt)) chunk_size ks n_layers hidden_size hshape hnz
      (List.range ((encodeX rawtxt).length / chunk_size)) p0 0 []
  refine ⟨gen2, pfin, ?_, ?_⟩
  · rw [runEpoch]
    rw [hrun]
    congr 2
    ring
  · rw [epochCosts_length]
    exact List.length_range _

/-- Witness for C4 on corpus `"ab"`, `chunk_size = 1`, constant cell and
unit parameters. -/
theorem epoch_chunk_count_and_average_witness :
    ∃ gen pfin,
      runEpoch (fun _ => constStep) (fun _ _ => 1) (num_to_let ['a', 'b'])
          (fun p _ => p) (encodeX ['a', 'b'])
          (rollNeg1 (encodeX ['a', 'b'])) 1 (fun _ => 0) 1 2 ()
        = .ok ((epochCosts (fun _ => constStep) (fun _ _ => 1) (fun p _ => p)
              (encodeX ['a', 'b']) (rollNeg1 (encodeX ['a', 'b'])) 1
              (fun _ => 0) 1 2
              (List.range ((encodeX ['a', 'b']).length / 1)) ()).sum
            / (((encodeX ['a', 'b']).length / 1 : ℕ) : ℚ), gen, pfin) ∧
      (epochCosts (fun _ => constStep) (fun _ _ => 1) (fun p _ => p)
          (encodeX ['a', 'b']) (rollNeg1 (encodeX ['a', 'b'])) 1 (fun _ => 0)
          1 2 (List.range ((encodeX ['a', 'b']).length / 1)) ()).length
        = (encodeX ['a', 'b']).length / 1 :=
  epoch_chunk_count_and_average (fun _ => constStep) (fun _ _ => 1)
    (fun p _ => p) ['a', 'b'] 1 (fun _ => 0) 1 2 () (fun _ _ _ => rfl)
    (by simp)

/-- C5: the hidden state is the all-zero vector of the configured size at the
start of every training chunk and of every generation call, and no chunk's
final hidden state is ever used by a later chunk: the epoch's value is fully
described by `epochCosts`, in which every chunk's cost is computed from
`init_hidden n_layers hidden_size` — the formula contains no reference to any
previous chunk's final hidden state — and `generate` seeds its priming loop
with the same `init_hidden`. -/
theorem hidden_state_fresh_per_chunk_and_generation {P : Type}
    (step : P → ℕ → List ℚ → List ℚ × List ℚ) (crit : List ℚ → ℕ → ℚ)
    (upd : P → List (ℕ × ℕ) → P) (rawtxt : List Char) (chunk_size : ℕ)
    (ks : ℕ → ℕ) (n_layers hidden_size : ℕ) (p0 : P)
    (hshape : ∀ (q : P) (cid : ℕ) (h : List ℚ), ((step q cid h).1).length = nchars rawtxt)
    (hnz : rawtxt ≠ []) :
    (∀ q ∈ init_hidden n_layers hidden_size, q = 0) ∧
    (init_hidden n_layers hidden_size).length = n_layers * hidden_size ∧
    (∃ gen pfin,
      runEpoch step crit (num_to_let rawtxt) upd (encodeX rawtxt)
          (rollNeg1 (encodeX rawtxt)) chunk_size ks n_layers hidden_size p0
        = .ok ((epochCosts step crit upd (encodeX rawtxt)
              (rollNeg1 (encodeX rawtxt)) chunk_size ks n_layers hidden_size
              (List.range ((encodeX rawtxt).length / chunk_size)) p0).sum
            / (((encodeX rawtxt).length / chunk_size : ℕ) : ℚ), gen, pfin)) ∧
    (∀ (gstep : ℕ → List ℚ → List ℚ × List ℚ) (e : ℚ → ℚ)
        (prime_str : List Char) (str_len : ℕ) (temperature : ℚ) (u : ℕ → ℚ)
        (ids : List ℕ) (x : ℕ),
      maparray prime_str (let_to_num rawtxt) = some ids →
      ids.getLast? = some x →
      generate gstep e rawtxt prime_str str_len temperature u n_layers
          hidden_size
        = genLoop gstep (num_to_let rawtxt) e temperature u str_len 0 x
            (primeLoop gstep ids (init_hidden n_layers hidden_size))
            prime_str) := by
  refine ⟨?_, by simp [init_hidden], ?_, ?_⟩
  · intro q hq
    exact List.eq_of_mem_replicate hq
  · obtain ⟨gen2, pfin, hrun⟩ :=
      runEpochGo_ok step crit upd rawtxt (encodeX rawtxt)
        (rollNeg1 (encodeX rawtxt)) chunk_size ks n_layers hidden_size hshape
        hnz (List.range ((encodeX rawtxt).length / chunk_size)) p0 0 []
    refine ⟨gen2, pfin, ?_⟩
    rw [runEpoch]
    rw [hrun]
    congr 2
    ring
  · intro gstep e prime_str str_len temperature u ids x hmap hlast
    rw [generate, hmap]
    simp only [hlast]

/-- Witness for C5 with the constant cell on corpus `"ab"`. -/
theorem hidden_state_fresh_witness :
    (∀ q ∈ init_hidden 1 2, q = 0) ∧
    (init_hidden 1 2).length = 1 * 2 ∧
    (∃ gen pfin,
      runEpoch (fun _ => constStep) (fun _ _ => 1) (num_to_let ['a', 'b'])
          (fun (p : Unit) _ => p) (encodeX ['a', 'b'])
          (rollNeg1 (encodeX ['a', 'b'])) 1 (fun _ => 0) 1 2 ()
        = .ok ((epochCosts (fun _ => constStep) (fun _ _ => 1) (fun p _ => p)
              (encodeX ['a', 'b']) (rollNeg1 (encodeX ['a', 'b'])) 1
              (fun _ => 0) 1 2
              (List.range ((encodeX ['a', 'b']).length / 1)) ()).sum
            / (((encodeX ['a', 'b']).length / 1 : ℕ) : ℚ), gen, pfin)) ∧
    generate constStep (fun _ => (1 : ℚ)) ['a', 'b'] ['a'] 1 1 (fun _ => 0) 1 2
      = genLoop constStep (num_to_let ['a', 'b']) (fun _ => (1 : ℚ)) 1
          (fun _ => 0) 1 0 0 (primeLoop constStep [0] (init_hidden 1 2))
          ['a'] := by
  have h := hidden_state_fresh_per_chunk_and_generation (fun _ => constStep)
    (fun _ _ => 1) (fun (p : Unit) _ => p) ['a', 'b'] 1 (fun _ => 0) 1 2 ()
    (fun _ _ _ => rfl) (by simp)
  exact ⟨h.1, h.2.1, h.2.2.1,
    h.2.2.2 constStep (fun _ => (1 : ℚ)) ['a'] 1 1 (fun _ => 0) [0] 0
      (by decide) rfl⟩

end Training

end RNNLecture
